import Mathlib

/-!
Verification of the tiny-npu golden reference (src/python/golden/reference.py)
and the weight packer (src/python/tools/quantize_pack.py).

Modelling conventions:
* numpy int32 / int16 arithmetic is modelled over ℤ with explicit two's
  complement wrapping (`wrap32`, `wrap16`); arithmetic right shift is floor
  division by a power of two (`Int.fdiv`).
* numpy float arithmetic in the quantization codec is modelled over ℚ
  (exact arithmetic); `np.round` is round-half-to-even (`rne`).
* the softmax path uses `exp`, so it is modelled over ℝ with `Real.exp`;
  `np.round` there is the same generic `rne`.
* matrices are functions `Fin m → Fin n → ℤ`, tensors are `List`s.
-/

/-- Two's complement wrap of an integer into the signed 32-bit range
`[-2^31, 2^31)`, matching numpy int32 overflow behaviour. -/
def wrap32 (z : ℤ) : ℤ :=
  (z + 2 ^ 31) % 2 ^ 32 - 2 ^ 31

/-- Two's complement wrap of an integer into the signed 16-bit range
`[-2^15, 2^15)`, matching numpy int16 overflow behaviour. -/
def wrap16 (z : ℤ) : ℤ :=
  (z + 2 ^ 15) % 2 ^ 16 - 2 ^ 15

/-- Model of `np.clip(z, -128, 127)`: saturate to the INT8 range. -/
def clip8 (z : ℤ) : ℤ :=
  max (-128) (min 127 z)

/-- Model of `np.clip(z, -127, 127)`: saturate to the symmetric INT8 range. -/
def clip7 (z : ℤ) : ℤ :=
  max (-127) (min 127 z)

/-- Model of `np.clip(z, 0, 127)`: saturate to the probability range of the softmax. -/
def clip0 (z : ℤ) : ℤ :=
  max 0 (min 127 z)

/-- Model of `np.round`: round to nearest, ties to even. -/
def rne {α : Type} [LinearOrderedField α] [FloorRing α] (q : α) : ℤ :=
  if q - ⌊q⌋ < 1 / 2 then ⌊q⌋
  else if (1 : α) / 2 < q - ⌊q⌋ then ⌊q⌋ + 1
  else if ⌊q⌋ % 2 = 0 then ⌊q⌋ else ⌊q⌋ + 1

/-- Model of `reference.py::gemm_golden`: INT8 GEMM with INT32 accumulation.
`acc = A_i32 @ B_i32`; `acc += C_prev` when `accumulate and C_prev is not None`;
`rounded = (acc * scale + (1 << (shift-1))) >> shift` when `shift > 0`, else
`acc * scale`; result `np.clip(rounded, -128, 127)`. -/
def gemm_golden {m k n : ℕ} (A : Fin m → Fin k → ℤ) (B : Fin k → Fin n → ℤ)
    (scale : ℤ) (shift : ℕ) (accumulate : Bool)
    (C_prev : Option (Fin m → Fin n → ℤ)) : Fin m → Fin n → ℤ :=
  fun i j =>
    let acc0 : ℤ := wrap32 (∑ p : Fin k, A i p * B p j)
    let acc : ℤ :=
      match accumulate, C_prev with
      | true, some C => wrap32 (acc0 + C i j)
      | _, _ => acc0
    let rounded : ℤ :=
      if 0 < shift then Int.fdiv (wrap32 (acc * scale + 2 ^ (shift - 1))) (2 ^ shift)
      else wrap32 (acc * scale)
    clip8 rounded

/-- The GEMM requantization formula exactly as the specification states it:
widened 32-bit signed product, optional widened `C_prev` accumulation,
`(acc*scale + (1<<(shift-1))) >> shift` for `shift > 0` and `acc*scale` for
`shift = 0`, then clamp to `[-128,127]`. -/
def gemm_claimed {m k n : ℕ} (A : Fin m → Fin k → ℤ) (B : Fin k → Fin n → ℤ)
    (scale : ℤ) (shift : ℕ) (accumulate : Bool)
    (C_prev : Fin m → Fin n → ℤ) : Fin m → Fin n → ℤ :=
  fun i j =>
    let prod : ℤ := wrap32 (∑ p : Fin k, A i p * B p j)
    let acc : ℤ := if accumulate then wrap32 (prod + C_prev i j) else prod
    let requant : ℤ :=
      if 0 < shift then Int.fdiv (wrap32 (acc * scale + 2 ^ (shift - 1))) (2 ^ shift)
      else wrap32 (acc * scale)
    max (-128) (min 127 requant)

/-- Model of `reference.py::vec_add_golden`: widen to int16, add, clip to INT8. -/
def vec_add_golden {m n : ℕ} (a b : Fin m → Fin n → ℤ) : Fin m → Fin n → ℤ :=
  fun i j => clip8 (wrap16 (a i j + b i j))

/-- Model of `reference.py::vec_mul_golden`: widen to int16, multiply, arithmetic
right shift by 7, clip to INT8. -/
def vec_mul_golden {m n : ℕ} (a b : Fin m → Fin n → ℤ) : Fin m → Fin n → ℤ :=
  fun i j => clip8 (Int.fdiv (wrap16 (a i j * b i j)) (2 ^ 7))

/-- Matrix transpose, `k.T` in the source. -/
def transpose {m n : ℕ} (A : Fin m → Fin n → ℤ) : Fin n → Fin m → ℤ :=
  fun i j => A j i

/-- Maximum of the absolute values of a list, `np.max(np.abs(x))`
(with value 0 on the empty list). -/
def maxAbsList (x : List ℚ) : ℚ :=
  x.foldr (fun v m => max |v| m) 0

/-- Model of `reference.py::quantize_tensor`: symmetric per-tensor INT8 quantization.
If `scale` is `none` it is computed as `max_abs / 127` (or 1.0 when the
tensor is all zero); values are `np.clip(np.round(x/scale), -128, 127)`. -/
def quantize_tensor (x : List ℚ) (scaleArg : Option ℚ) : List ℤ × ℚ :=
  let scale : ℚ :=
    match scaleArg with
    | some s => s
    | none => if 0 < maxAbsList x then maxAbsList x / 127 else 1
  (x.map (fun v => clip8 (rne (v / scale))), scale)

/-- Model of `reference.py::dequantize_tensor`: `x_q * scale`. -/
def dequantize_tensor (q : List ℤ) (scale : ℚ) : List ℚ :=
  q.map (fun z : ℤ => (z : ℚ) * scale)

/-- Model of `quantize_pack.py::quantize_int8_symmetric`: always computes the scale
from the data (`max_abs / 127`, or 1.0 when all zero / empty) and clips
to the symmetric range `[-127, 127]`. -/
def quantize_int8_symmetric (x : List ℚ) : List ℤ × ℚ :=
  let maxAbs : ℚ := maxAbsList x
  let scale : ℚ := if 0 < maxAbs then maxAbs / 127 else 1
  (x.map (fun v => clip7 (rne (v / scale))), scale)

/-- One manifest record of `quantize_pack.py::quantize_and_pack`
(`shape`/`orig_dtype`/`packed_dtype` carry no arithmetic content and are
omitted; `nbytes` counts int8 payload bytes, one per element). -/
structure ManifestEntry where
  name : String
  scale : ℚ
  offset : ℕ
  nbytes : ℕ
  deriving Repr, DecidableEq, Inhabited

/-- The packing loop of `quantize_and_pack`: starting from byte offset
`off`, quantize each tensor, record its manifest entry, append its raw
bytes to the payload, and advance the offset by the byte length. -/
def packGo (off : ℕ) : List (String × List ℚ) → List ManifestEntry × List ℤ
  | [] => ([], [])
  | (name, arr) :: rest =>
    let q : List ℤ := (quantize_int8_symmetric arr).1
    let r := packGo (off + q.length) rest
    (⟨name, (quantize_int8_symmetric arr).2, off, q.length⟩ :: r.1, q ++ r.2)

/-- Model of `quantize_pack.py::quantize_and_pack` (manifest and payload part):
process the tensors in name-sorted order, quantizing each and packing the
payload contiguously from offset 0. -/
def quantize_and_pack (tensors : List (String × List ℚ)) :
    List ManifestEntry × List ℤ :=
  packGo 0 (tensors.mergeSort (fun a b => a.1 ≤ b.1))

/-- Model of `reference.py::compare_tensors`. `some false`: shape mismatch;
`some true`: pass (max widened absolute difference ≤ tolerance).
`none` models the failure branch: the example-reporting loop executes
`idx = tuple(m[idx] for m in mismatch_idx)`, reading the local `idx`
before it is ever assigned, which raises UnboundLocalError, so the
function never returns on a mismatch. -/
def compare_tensors (a b : List ℤ) (tolerance : ℤ) : Option Bool :=
  if a.length ≠ b.length then some false
  else
    let diffs : List ℤ := List.zipWith (fun u v => |u - v|) a b
    let maxDiff : ℤ := diffs.foldr max 0
    if maxDiff ≤ tolerance then some true else none

/-- Row `i` of the softmax input after widening to the floating domain and
adding the `-1e9` causal mask on the strict upper triangle
(`x_f + np.triu(np.ones((M, N)), k=1) * -1e9` in the source). -/
def softmax_row {M N : ℕ} (x : Fin M → Fin N → ℤ) (causal : Bool)
    (i : Fin M) : Fin N → ℝ :=
  fun c =>
    (x i c : ℝ) + (if causal = true ∧ (i : ℕ) < (c : ℕ) then -(1000000000 : ℝ) else 0)

/-- Model of `reference.py::softmax_golden`, modelled over ℝ: add `-1e9` to the
strictly upper triangle when `causal`, subtract the row max, exponentiate,
normalize, then `np.clip(np.round(probs * 127), 0, 127)`. -/
noncomputable def softmax_golden {M N : ℕ} (x : Fin M → Fin N → ℤ)
    (causal : Bool) : Fin M → Fin N → ℤ :=
  fun i j =>
    let xf : Fin N → ℝ := softmax_row x causal i
    let xmax : ℝ := sSup (Set.range xf)
    let z : ℝ := ∑ c : Fin N, Real.exp (xf c - xmax)
    clip0 (rne (127 * (Real.exp (xf j - xmax) / z)))

/-- Model of `reference.py::attention_head_golden`: q/k/v projections with
`scale=1, shift=7`, scores with `scale=1, shift=4`, softmax, context with
`scale=1, shift=7` (the `seq_len`/`head_dim` arguments are unused). -/
noncomputable def attention_head_golden {S H D : ℕ}
    (x : Fin S → Fin H → ℤ) (w_q w_k w_v : Fin H → Fin D → ℤ)
    (causal : Bool) : Fin S → Fin D → ℤ :=
  let q := gemm_golden x w_q 1 7 false none
  let k := gemm_golden x w_k 1 7 false none
  let v := gemm_golden x w_v 1 7 false none
  let scores := gemm_golden q (transpose k) 1 4 false none
  let probs := softmax_golden scores causal
  gemm_golden probs v 1 7 false none

/-- Model of `reference.py::layernorm_golden` over ℝ: per row, mean and
population variance, normalize by `sqrt(var + eps)`, scale by widened
`gamma`, shift by widened `beta`, round, clip to INT8. -/
noncomputable def layernorm_golden {M N : ℕ} (x : Fin M → Fin N → ℤ)
    (gamma beta : Fin N → ℤ) (eps : ℝ) : Fin M → Fin N → ℤ :=
  fun i j =>
    let xf : Fin N → ℝ := fun c => (x i c : ℝ)
    let mean : ℝ := (∑ c : Fin N, xf c) / N
    let var : ℝ := (∑ c : Fin N, (xf c - mean) ^ 2) / N
    let xnorm : ℝ := (xf j - mean) / Real.sqrt (var + eps)
    clip8 (rne (xnorm * (gamma j : ℝ) + (beta j : ℝ)))

/-- Model of `reference.py::gelu_golden` (elementwise) over ℝ: the tanh
approximation `0.5 * x * (1 + tanh(sqrt(2/pi) * (x + 0.044715 * x^3)))`,
rounded and clipped to INT8. -/
noncomputable def gelu_golden (x : ℤ) : ℤ :=
  let xf : ℝ := (x : ℝ)
  let cdf : ℝ := 0.5 * (1 + Real.tanh (Real.sqrt (2 / Real.pi) *
    (xf + 0.044715 * xf ^ 3)))
  clip8 (rne (xf * cdf))

/-! ### Rounding lemmas -/

theorem floor_frac_nonneg {α : Type} [LinearOrderedField α] [FloorRing α]
    (q : α) : 0 ≤ q - ⌊q⌋ :=
  sub_nonneg.mpr (Int.floor_le q)

theorem floor_frac_lt_one {α : Type} [LinearOrderedField α] [FloorRing α]
    (q : α) : q - ⌊q⌋ < 1 :=
  sub_lt_iff_lt_add.mpr (by rw [add_comm]; exact Int.lt_floor_add_one q)

/-- Round-half-to-even never moves a value by more than one half. -/
theorem abs_rne_sub_le {α : Type} [LinearOrderedField α] [FloorRing α]
    (q : α) : |(rne q : α) - q| ≤ 1 / 2 := by
  have h0 : 0 ≤ q - ⌊q⌋ := floor_frac_nonneg q
  have h1 : q - ⌊q⌋ < 1 := floor_frac_lt_one q
  unfold rne
  split_ifs with hl hg he <;>
    (rw [abs_le]; constructor <;> push_cast <;> linarith)

/-- A value in `[0, 1/2)` rounds to 0. -/
theorem rne_eq_zero {α : Type} [LinearOrderedField α] [FloorRing α]
    {q : α} (h0 : 0 ≤ q) (h : q < 1 / 2) : rne q = 0 := by
  have hf : ⌊q⌋ = 0 := Int.floor_eq_zero_iff.mpr ⟨h0, by linarith⟩
  have hc : q - (⌊q⌋ : α) < 1 / 2 := by rw [hf]; push_cast; linarith
  unfold rne
  rw [if_pos hc, hf]

/-- Rounding a value that is at most the integer `c` gives at most `c`. -/
theorem rne_le {α : Type} [LinearOrderedField α] [FloorRing α]
    {q : α} {c : ℤ} (h : q ≤ (c : α)) : rne q ≤ c := by
  have hb := abs_rne_sub_le q
  rw [abs_le] at hb
  have : (rne q : α) < (c : α) + 1 := by linarith
  exact Int.lt_add_one_iff.mp (by exact_mod_cast this)

/-- Rounding a value that is at least the integer `c` gives at least `c`. -/
theorem le_rne {α : Type} [LinearOrderedField α] [FloorRing α]
    {q : α} {c : ℤ} (h : (c : α) ≤ q) : c ≤ rne q := by
  have hb := abs_rne_sub_le q
  rw [abs_le] at hb
  have : (c : α) - 1 < (rne q : α) := by linarith
  have : c - 1 < rne q := by exact_mod_cast this
  omega

theorem clip8_bounds (z : ℤ) : -128 ≤ clip8 z ∧ clip8 z ≤ 127 := by
  unfold clip8; omega

theorem clip8_eq_self {z : ℤ} (h1 : -128 ≤ z) (h2 : z ≤ 127) : clip8 z = z := by
  unfold clip8; omega

theorem clip7_bounds (z : ℤ) : -127 ≤ clip7 z ∧ clip7 z ≤ 127 := by
  unfold clip7; omega

theorem clip0_bounds (z : ℤ) : -128 ≤ clip0 z ∧ clip0 z ≤ 127 := by
  unfold clip0; omega

/-! ### Claim theorems -/

/-- C1: `gemm_golden` computes exactly the requantization pipeline the
specification states: widened 32-bit signed product with no saturation
during accumulation, widened `C_prev` added when accumulation is requested,
requantization `(acc*scale + (1<<(shift-1))) >> shift` for `shift > 0` and
`acc*scale` for `shift = 0`, and a final clamp to `[-128, 127]`. -/
theorem C1_gemm_matches_claimed_requant {m k n : ℕ}
    (A : Fin m → Fin k → ℤ) (B : Fin k → Fin n → ℤ)
    (scale : ℤ) (shift : ℕ) (accumulate : Bool)
    (C_prev : Fin m → Fin n → ℤ) :
    gemm_golden A B scale shift accumulate (some C_prev) =
      gemm_claimed A B scale shift accumulate C_prev := by
  funext i j
  cases accumulate <;> rfl

/-- C10: requesting accumulation with no previous matrix is silently
ignored: `gemm_golden` with `accumulate = true` and `C_prev = none`
coincides with the non-accumulating call. -/
theorem C10_accumulate_none_ignored {m k n : ℕ}
    (A : Fin m → Fin k → ℤ) (B : Fin k → Fin n → ℤ)
    (scale : ℤ) (shift : ℕ) :
    gemm_golden A B scale shift true none =
      gemm_golden A B scale shift false none := rfl

/-- C4: kernel outputs are saturated into `[-128, 127]`: every entry of a
GEMM result lies in the INT8 range whatever the accumulator value, and so
does every entry of the saturating vector add and multiply, of the
softmax, of the layer norm, and of the GELU. -/
theorem C4_kernel_outputs_in_int8_range {m k n : ℕ} :
    (∀ (A : Fin m → Fin k → ℤ) (B : Fin k → Fin n → ℤ) (scale : ℤ)
       (shift : ℕ) (accumulate : Bool) (C_prev : Option (Fin m → Fin n → ℤ))
       (i : Fin m) (j : Fin n),
       -128 ≤ gemm_golden A B scale shift accumulate C_prev i j ∧
         gemm_golden A B scale shift accumulate C_prev i j ≤ 127) ∧
    (∀ (a b : Fin m → Fin n → ℤ) (i : Fin m) (j : Fin n),
       -128 ≤ vec_add_golden a b i j ∧ vec_add_golden a b i j ≤ 127) ∧
    (∀ (a b : Fin m → Fin n → ℤ) (i : Fin m) (j : Fin n),
       -128 ≤ vec_mul_golden a b i j ∧ vec_mul_golden a b i j ≤ 127) ∧
    (∀ (x : Fin m → Fin n → ℤ) (causal : Bool) (i : Fin m) (j : Fin n),
       -128 ≤ softmax_golden x causal i j ∧ softmax_golden x causal i j ≤ 127) ∧
    (∀ (x : Fin m → Fin n → ℤ) (gamma beta : Fin n → ℤ) (eps : ℝ)
       (i : Fin m) (j : Fin n),
       -128 ≤ layernorm_golden x gamma beta eps i j ∧
         layernorm_golden x gamma beta eps i j ≤ 127) ∧
    (∀ x : ℤ, -128 ≤ gelu_golden x ∧ gelu_golden x ≤ 127) :=
  ⟨fun _ _ _ _ _ _ _ _ => clip8_bounds _,
   fun _ _ _ _ => clip8_bounds _,
   fun _ _ _ _ => clip8_bounds _,
   fun _ _ _ _ => clip0_bounds _,
   fun _ _ _ _ _ _ => clip8_bounds _,
   fun _ => clip8_bounds _⟩

/-- C6 (code bug): the pass side of `compare_tensors` works — equal
tensors at tolerance 0 return pass — but any mismatch reaches the
example-reporting loop, which reads the variable `idx` before assigning
it and raises UnboundLocalError instead of returning fail (modelled as
`none`). -/
theorem C6_compare_fail_branch_crashes :
    compare_tensors [0] [0] 0 = some true ∧
      compare_tensors [0] [1] 0 = none := by
  constructor <;> rfl

/-! ### Quantizer lemmas -/

theorem maxAbsList_nonneg (x : List ℚ) : 0 ≤ maxAbsList x := by
  induction x with
  | nil => exact le_refl 0
  | cons v t ih => exact le_trans ih (le_max_right _ _)

theorem abs_le_maxAbsList {x : List ℚ} {v : ℚ} (hv : v ∈ x) :
    |v| ≤ maxAbsList x := by
  induction x with
  | nil => cases hv
  | cons w t ih =>
    rcases List.mem_cons.mp hv with h | h
    · subst h; exact le_max_left _ _
    · exact le_trans (ih h) (le_max_right _ _)

theorem maxAbsList_eq_zero {x : List ℚ} (h : ∀ v ∈ x, v = 0) :
    maxAbsList x = 0 := by
  induction x with
  | nil => rfl
  | cons w t ih =>
    have hw : w = 0 := h w (List.mem_cons_self w t)
    have ht : maxAbsList t = 0 := ih fun v hv => h v (List.mem_cons_of_mem w hv)
    show max |w| (maxAbsList t) = 0
    rw [hw, ht]; simp

/-- With the scale computed from the data, every rounded quotient lies in
the symmetric range `[-127, 127]`. -/
theorem rne_div_computed_scale_bounds {x : List ℚ} {v : ℚ} (hv : v ∈ x) :
    -127 ≤ rne (v / (if 0 < maxAbsList x then maxAbsList x / 127 else 1)) ∧
      rne (v / (if 0 < maxAbsList x then maxAbsList x / 127 else 1)) ≤ 127 := by
  by_cases hM : 0 < maxAbsList x
  · rw [if_pos hM]
    have habs : |v| ≤ maxAbsList x := abs_le_maxAbsList hv
    have hs : (0 : ℚ) < maxAbsList x / 127 := by positivity
    have hub : v / (maxAbsList x / 127) ≤ ((127 : ℤ) : ℚ) := by
      rw [div_le_iff₀ hs]
      push_cast
      rw [abs_le] at habs
      calc v ≤ maxAbsList x := habs.2
        _ = 127 * (maxAbsList x / 127) := by ring
    have hlb : ((-127 : ℤ) : ℚ) ≤ v / (maxAbsList x / 127) := by
      rw [le_div_iff₀ hs]
      push_cast
      rw [abs_le] at habs
      calc (-127 : ℚ) * (maxAbsList x / 127) = -maxAbsList x := by ring
        _ ≤ v := habs.1
    exact ⟨le_rne hlb, rne_le hub⟩
  · rw [if_neg hM]
    have hM0 : maxAbsList x = 0 :=
      le_antisymm (not_lt.mp hM) (maxAbsList_nonneg x)
    have hv0 : v = 0 := by
      have := abs_le_maxAbsList hv
      rw [hM0] at this
      exact abs_eq_zero.mp (le_antisymm this (abs_nonneg v))
    rw [hv0]
    norm_num [rne_eq_zero]

/-- C2 (amended): `quantize_int8_symmetric` clamps to `[-127, 127]` and
never produces -128; `quantize_tensor` clamps to `[-128, 127]`, and with a
computed scale its outputs still lie in `[-127, 127]`, but with a supplied
scale the value -128 can appear. -/
theorem C2_quantized_ranges (x : List ℚ) (z : ℤ) :
    (z ∈ (quantize_int8_symmetric x).1 → -127 ≤ z ∧ z ≤ 127) ∧
    (z ∈ (quantize_tensor x none).1 → -127 ≤ z ∧ z ≤ 127) := by
  constructor
  · intro hz
    simp only [quantize_int8_symmetric, List.mem_map] at hz
    obtain ⟨v, _, rfl⟩ := hz
    exact clip7_bounds _
  · intro hz
    simp only [quantize_tensor, List.mem_map] at hz
    obtain ⟨v, hv, rfl⟩ := hz
    have h := rne_div_computed_scale_bounds hv
    unfold clip8
    omega

/-- C2 counterexample: with a supplied scale, `quantize_tensor` produces
-128 (here on the tensor `[-200]` with scale 1), so the claim that the
quantized output never contains -128 is false as stated. -/
theorem C2_minus128_reachable :
    (quantize_tensor [(-200 : ℚ)] (some 1)).1 = [-128] := by
  have h : rne ((-200 : ℚ) / 1) = -200 := by norm_num [rne]
  show [clip8 (rne ((-200 : ℚ) / 1))] = [-128]
  rw [h]
  norm_num [clip8]

/-- C2 witness. -/
theorem C2_witness :
    ((127 : ℤ) ∈ (quantize_int8_symmetric [(200 : ℚ)]).1 ∧
      -127 ≤ (127 : ℤ) ∧ (127 : ℤ) ≤ 127) ∧
    ((127 : ℤ) ∈ (quantize_tensor [(200 : ℚ)] none).1 ∧
      -127 ≤ (127 : ℤ) ∧ (127 : ℤ) ≤ 127) := by
  have hmax : maxAbsList [(200 : ℚ)] = 200 := by
    simp [maxAbsList]
  have hsc : (if 0 < maxAbsList [(200 : ℚ)] then maxAbsList [(200 : ℚ)] / 127 else 1) =
      200 / 127 := by
    rw [hmax]
    norm_num
  have hq : (200 : ℚ) / (200 / 127) = 127 := by norm_num
  have hr : rne ((127 : ℚ)) = 127 := by norm_num [rne]
  have hm1 : (127 : ℤ) ∈ (quantize_int8_symmetric [(200 : ℚ)]).1 := by
    show (127 : ℤ) ∈ [clip7 (rne ((200 : ℚ) /
      (if 0 < maxAbsList [(200 : ℚ)] then maxAbsList [(200 : ℚ)] / 127 else 1)))]
    rw [hsc, hq, hr]
    norm_num [clip7]
  have hm2 : (127 : ℤ) ∈ (quantize_tensor [(200 : ℚ)] none).1 := by
    show (127 : ℤ) ∈ [clip8 (rne ((200 : ℚ) /
      (if 0 < maxAbsList [(200 : ℚ)] then maxAbsList [(200 : ℚ)] / 127 else 1)))]
    rw [hsc, hq, hr]
    norm_num [clip8]
  exact ⟨⟨hm1, (C2_quantized_ranges [(200 : ℚ)] 127).1 hm1⟩,
    ⟨hm2, (C2_quantized_ranges [(200 : ℚ)] 127).2 hm2⟩⟩

/-- Pointwise round-trip bound for the computed-scale quantizer: for any
element `v` of `x`, dequantizing its quantized value lands within half a
scale of `v`. -/
theorem quantize_roundtrip_pointwise {x : List ℚ} {v : ℚ} (hv : v ∈ x) :
    |(clip8 (rne (v / (if 0 < maxAbsList x then maxAbsList x / 127 else 1))) : ℚ) *
        (if 0 < maxAbsList x then maxAbsList x / 127 else 1) - v| ≤
      (if 0 < maxAbsList x then maxAbsList x / 127 else 1) / 2 := by
  have hb := rne_div_computed_scale_bounds hv
  have hclip :
      clip8 (rne (v / (if 0 < maxAbsList x then maxAbsList x / 127 else 1))) =
        rne (v / (if 0 < maxAbsList x then maxAbsList x / 127 else 1)) :=
    clip8_eq_self (by omega) (by omega)
  rw [hclip]
  by_cases hM : 0 < maxAbsList x
  · rw [if_pos hM] at *
    have hs : (0 : ℚ) < maxAbsList x / 127 := by positivity
    set s : ℚ := maxAbsList x / 127 with hsdef
    have hkey : (rne (v / s) : ℚ) * s - v = ((rne (v / s) : ℚ) - v / s) * s := by
      field_simp
    rw [hkey, abs_mul, abs_of_pos hs]
    have := abs_rne_sub_le (v / s)
    calc |(rne (v / s) : ℚ) - v / s| * s ≤ 1 / 2 * s :=
          mul_le_mul_of_nonneg_right this (le_of_lt hs)
      _ = s / 2 := by ring
  · rw [if_neg hM] at *
    have hM0 : maxAbsList x = 0 :=
      le_antisymm (not_lt.mp hM) (maxAbsList_nonneg x)
    have hv0 : v = 0 := by
      have := abs_le_maxAbsList hv
      rw [hM0] at this
      exact abs_eq_zero.mp (le_antisymm this (abs_nonneg v))
    rw [hv0]
    norm_num [rne_eq_zero]

/-- C3: with the scale computed from the tensor, dequantizing the
quantization of `x` reproduces every element of `x` to within half the
scale. -/
theorem C3_dequantize_quantize_within_half_scale (x : List ℚ) (i : ℕ)
    (hi : i < x.length) :
    |(dequantize_tensor (quantize_tensor x none).1
        (quantize_tensor x none).2).getD i 0 - x.getD i 0| ≤
      (quantize_tensor x none).2 / 2 := by
  have hd : dequantize_tensor (quantize_tensor x none).1 (quantize_tensor x none).2 =
      List.map (fun z : ℤ => (z : ℚ) * (if 0 < maxAbsList x then maxAbsList x / 127 else 1))
        (List.map (fun v : ℚ =>
          clip8 (rne (v / (if 0 < maxAbsList x then maxAbsList x / 127 else 1)))) x) := rfl
  have hs : (quantize_tensor x none).2 =
      (if 0 < maxAbsList x then maxAbsList x / 127 else 1) := rfl
  rw [hd, hs]
  have hlen1 : i <
      (List.map (fun z : ℤ => (z : ℚ) * (if 0 < maxAbsList x then maxAbsList x / 127 else 1))
        (List.map (fun v : ℚ =>
          clip8 (rne (v / (if 0 < maxAbsList x then maxAbsList x / 127 else 1)))) x)).length := by
    simpa using hi
  rw [List.getD_eq_getElem _ _ hlen1, List.getD_eq_getElem _ _ hi,
    List.getElem_map, List.getElem_map]
  exact quantize_roundtrip_pointwise (List.getElem_mem hi)

/-- C3 witness. -/
theorem C3_roundtrip_witness :
    |(dequantize_tensor (quantize_tensor [(3 / 2 : ℚ)] none).1
        (quantize_tensor [(3 / 2 : ℚ)] none).2).getD 0 0 - [(3 / 2 : ℚ)].getD 0 0| ≤
      (quantize_tensor [(3 / 2 : ℚ)] none).2 / 2 :=
  C3_dequantize_quantize_within_half_scale [(3 / 2 : ℚ)] 0 (by norm_num)

/-- C9: the computed quantization scale is strictly positive for every
input tensor (in both `quantize_tensor` with scale omitted and
`quantize_int8_symmetric`), and an all-zero tensor yields scale exactly 1
with every quantized value 0. -/
theorem C9_scale_positive_zero_tensor (x : List ℚ) :
    0 < (quantize_tensor x none).2 ∧ 0 < (quantize_int8_symmetric x).2 ∧
    ((∀ v ∈ x, v = 0) →
      (quantize_tensor x none).2 = 1 ∧ (quantize_int8_symmetric x).2 = 1 ∧
      (∀ z ∈ (quantize_tensor x none).1, z = 0) ∧
      (∀ z ∈ (quantize_int8_symmetric x).1, z = 0)) := by
  have hscale : (0 : ℚ) < (if 0 < maxAbsList x then maxAbsList x / 127 else 1) := by
    by_cases hM : 0 < maxAbsList x
    · rw [if_pos hM]; positivity
    · rw [if_neg hM]; norm_num
  refine ⟨hscale, hscale, ?_⟩
  intro hz
  have hM0 : maxAbsList x = 0 := maxAbsList_eq_zero hz
  have hif : (if 0 < maxAbsList x then maxAbsList x / 127 else 1) = 1 := by
    rw [hM0]; norm_num
  refine ⟨hif, hif, ?_, ?_⟩
  · intro z hzz
    simp only [quantize_tensor, List.mem_map] at hzz
    obtain ⟨v, hv, rfl⟩ := hzz
    rw [hz v hv, hif]
    norm_num [rne_eq_zero, clip8]
  · intro z hzz
    simp only [quantize_int8_symmetric, List.mem_map] at hzz
    obtain ⟨v, hv, rfl⟩ := hzz
    rw [hz v hv, hif]
    norm_num [rne_eq_zero, clip7]

/-- C9 witness. -/
theorem C9_zero_tensor_witness :
    0 < (quantize_tensor [(0 : ℚ)] none).2 ∧
      (quantize_tensor [(0 : ℚ)] none).2 = 1 ∧
      (quantize_int8_symmetric [(0 : ℚ)]).2 = 1 :=
  ⟨(C9_scale_positive_zero_tensor [(0 : ℚ)]).1,
   ((C9_scale_positive_zero_tensor [(0 : ℚ)]).2.2 (by norm_num)).1,
   ((C9_scale_positive_zero_tensor [(0 : ℚ)]).2.2 (by norm_num)).2.1⟩

/-! ### Packer lemmas -/

theorem packGo_length (off : ℕ) (l : List (String × List ℚ)) :
    (packGo off l).1.length = l.length := by
  induction l generalizing off with
  | nil => rfl
  | cons p rest ih =>
    cases p with
    | mk name arr => simp [packGo, ih]

theorem packGo_head (off : ℕ) (l : List (String × List ℚ)) (h : l ≠ []) :
    ((packGo off l).1.getD 0 default).offset = off := by
  cases l with
  | nil => exact absurd rfl h
  | cons p rest =>
    cases p with
    | mk name arr => rfl

theorem packGo_chain (off : ℕ) (l : List (String × List ℚ)) (i : ℕ)
    (h : i + 1 < l.length) :
    ((packGo off l).1.getD (i + 1) default).offset =
      ((packGo off l).1.getD i default).offset +
        ((packGo off l).1.getD i default).nbytes := by
  induction l generalizing off i with
  | nil => simp at h
  | cons p rest ih =>
    cases p with
    | mk name arr =>
      cases i with
      | zero =>
        have hrest : rest ≠ [] := by
          intro hr
          rw [hr] at h
          simp at h
        simp only [packGo, List.getD_cons_succ, List.getD_cons_zero]
        exact packGo_head _ rest hrest
      | succ i =>
        have h' : i + 1 < rest.length := by
          simp only [List.length_cons] at h
          omega
        simp only [packGo, List.getD_cons_succ]
        exact ih _ i h'

theorem packGo_last (off : ℕ) (l : List (String × List ℚ)) (h : l ≠ []) :
    ((packGo off l).1.getD ((packGo off l).1.length - 1) default).offset +
      ((packGo off l).1.getD ((packGo off l).1.length - 1) default).nbytes =
      off + (packGo off l).2.length := by
  induction l generalizing off with
  | nil => exact absurd rfl h
  | cons p rest ih =>
    cases p with
    | mk name arr =>
      by_cases hrest : rest = []
      · subst hrest
        simp [packGo, List.getD_cons_zero]
      · have ihr := ih (off + ((quantize_int8_symmetric arr).1).length) hrest
        have hes : (packGo (off + ((quantize_int8_symmetric arr).1).length) rest).1.length =
            rest.length := packGo_length _ _
        have hpos : 0 < rest.length := List.length_pos.mpr hrest
        simp only [packGo, List.length_cons, List.length_append]
        have hidx : (packGo (off + ((quantize_int8_symmetric arr).1).length) rest).1.length + 1 - 1 =
            ((packGo (off + ((quantize_int8_symmetric arr).1).length) rest).1.length - 1) + 1 := by
          omega
        rw [hidx, List.getD_cons_succ]
        omega

/-- C8: for a non-empty collection of input tensors, `quantize_and_pack`
(which processes tensors in name-sorted order) records manifest entries
whose offsets and byte lengths partition the payload exactly: the first
offset is 0, each next offset is the previous offset plus its length, and
the last offset plus length equals the total payload size. -/
theorem C8_manifest_offsets_partition (tensors : List (String × List ℚ))
    (h : tensors ≠ []) :
    (quantize_and_pack tensors).1 ≠ [] ∧
    ((quantize_and_pack tensors).1.getD 0 default).offset = 0 ∧
    (∀ i : ℕ, i + 1 < (quantize_and_pack tensors).1.length →
      ((quantize_and_pack tensors).1.getD (i + 1) default).offset =
        ((quantize_and_pack tensors).1.getD i default).offset +
          ((quantize_and_pack tensors).1.getD i default).nbytes) ∧
    ((quantize_and_pack tensors).1.getD
        ((quantize_and_pack tensors).1.length - 1) default).offset +
      ((quantize_and_pack tensors).1.getD
        ((quantize_and_pack tensors).1.length - 1) default).nbytes =
      (quantize_and_pack tensors).2.length := by
  have hslen : (tensors.mergeSort (fun a b => a.1 ≤ b.1)).length = tensors.length :=
    List.length_mergeSort tensors
  have hsne : tensors.mergeSort (fun a b => a.1 ≤ b.1) ≠ [] := by
    intro hs
    apply h
    rw [← List.length_eq_zero, ← hslen, hs]
    rfl
  refine ⟨?_, ?_, ?_, ?_⟩
  · show (packGo 0 (tensors.mergeSort (fun a b => a.1 ≤ b.1))).1 ≠ []
    intro hp
    apply hsne
    rw [← List.length_eq_zero, ← packGo_length 0, hp]
    rfl
  · exact packGo_head 0 _ hsne
  · intro i hi
    apply packGo_chain 0 _ i
    rw [← packGo_length 0]
    exact hi
  · have hl := packGo_last 0 (tensors.mergeSort (fun a b => a.1 ≤ b.1)) hsne
    rw [Nat.zero_add] at hl
    exact hl

/-- C8 witness. -/
theorem C8_partition_witness :
    ((quantize_and_pack [("a", [(1 : ℚ)]), ("b", [(1 : ℚ), 2])]).1.getD 0 default).offset = 0 ∧
    ((quantize_and_pack [("a", [(1 : ℚ)]), ("b", [(1 : ℚ), 2])]).1.getD 1 default).offset =
      ((quantize_and_pack [("a", [(1 : ℚ)]), ("b", [(1 : ℚ), 2])]).1.getD 0 default).offset +
        ((quantize_and_pack [("a", [(1 : ℚ)]), ("b", [(1 : ℚ), 2])]).1.getD 0 default).nbytes ∧
    ((quantize_and_pack [("a", [(1 : ℚ)]), ("b", [(1 : ℚ), 2])]).1.getD
        ((quantize_and_pack [("a", [(1 : ℚ)]), ("b", [(1 : ℚ), 2])]).1.length - 1) default).offset +
      ((quantize_and_pack [("a", [(1 : ℚ)]), ("b", [(1 : ℚ), 2])]).1.getD
        ((quantize_and_pack [("a", [(1 : ℚ)]), ("b", [(1 : ℚ), 2])]).1.length - 1) default).nbytes =
      (quantize_and_pack [("a", [(1 : ℚ)]), ("b", [(1 : ℚ), 2])]).2.length := by
  have h := C8_manifest_offsets_partition [("a", [(1 : ℚ)]), ("b", [(1 : ℚ), 2])] (by simp)
  have hlen : (quantize_and_pack [("a", [(1 : ℚ)]), ("b", [(1 : ℚ), 2])]).1.length = 2 := by
    show (packGo 0 ([("a", [(1 : ℚ)]), ("b", [(1 : ℚ), 2])].mergeSort
      (fun a b => a.1 ≤ b.1))).1.length = 2
    rw [packGo_length, List.length_mergeSort]
    rfl
  exact ⟨h.2.1, h.2.2.1 0 (by rw [hlen]; norm_num), h.2.2.2⟩

/-- C7: `attention_head_golden` is exactly the fixed composition the
specification states: q, k, v from GEMM with scale 1 and shift 7, scores
from `GEMM(q, transpose(k))` with scale 1 and shift 4, a causal-capable
softmax, and the context from GEMM with scale 1 and shift 7, in that
order. -/
theorem C7_attention_fixed_composition {S H D : ℕ}
    (x : Fin S → Fin H → ℤ) (w_q w_k w_v : Fin H → Fin D → ℤ) (causal : Bool) :
    attention_head_golden x w_q w_k w_v causal =
      gemm_golden
        (softmax_golden
          (gemm_golden (gemm_golden x w_q 1 7 false none)
            (transpose (gemm_golden x w_k 1 7 false none)) 1 4 false none)
          causal)
        (gemm_golden x w_v 1 7 false none) 1 7 false none := rfl

/-- A row entry sitting at least 6 below some other entry of the row
produces a softmax output of exactly 0 after scaling by 127, rounding and
clipping. -/
theorem softmax_masked_entry_zero {N : ℕ} (xf : Fin N → ℝ) (j c : Fin N)
    (h : xf j ≤ xf c - 6) :
    clip0 (rne (127 * (Real.exp (xf j - sSup (Set.range xf)) /
      ∑ d : Fin N, Real.exp (xf d - sSup (Set.range xf))))) = 0 := by
  set xmax := sSup (Set.range xf) with hxmax
  set z := ∑ d : Fin N, Real.exp (xf d - xmax) with hz
  have hcz : Real.exp (xf c - xmax) ≤ z := by
    rw [hz]
    exact Finset.single_le_sum (fun d _ => (Real.exp_pos (xf d - xmax)).le)
      (Finset.mem_univ c)
  have hzpos : 0 < z := lt_of_lt_of_le (Real.exp_pos _) hcz
  have hp0 : 0 ≤ 127 * (Real.exp (xf j - xmax) / z) := by positivity
  have hple : Real.exp (xf j - xmax) / z ≤
      Real.exp (xf j - xmax) / Real.exp (xf c - xmax) :=
    div_le_div_of_nonneg_left (Real.exp_pos _).le (Real.exp_pos _) hcz
  have heq : Real.exp (xf j - xmax) / Real.exp (xf c - xmax) =
      Real.exp (xf j - xf c) := by
    rw [← Real.exp_sub]
    ring_nf
  have hexp : Real.exp (xf j - xf c) ≤ Real.exp (-6 : ℝ) := by
    apply Real.exp_le_exp.mpr
    linarith
  have h254 : (254 : ℝ) < Real.exp 6 := by
    have h1 : (2.7 : ℝ) < Real.exp 1 := by
      have := Real.exp_one_gt_d9
      linarith
    have h6 : Real.exp (6 : ℝ) = Real.exp 1 ^ 6 := by
      rw [← Real.exp_nat_mul]
      norm_num
    rw [h6]
    calc (254 : ℝ) < 2.7 ^ 6 := by norm_num
      _ < Real.exp 1 ^ 6 := by
          apply pow_lt_pow_left₀ h1 (by norm_num)
          norm_num
  have hexp6 : Real.exp (-6 : ℝ) < 1 / 254 := by
    rw [Real.exp_neg]
    have hinv : (Real.exp 6)⁻¹ < (254 : ℝ)⁻¹ :=
      inv_strictAnti₀ (by norm_num) h254
    calc (Real.exp 6)⁻¹ < (254 : ℝ)⁻¹ := hinv
      _ = 1 / 254 := by norm_num
  have hfinal : 127 * (Real.exp (xf j - xmax) / z) < 1 / 2 := by
    have hchain : Real.exp (xf j - xmax) / z ≤ Real.exp (-6 : ℝ) := by
      calc Real.exp (xf j - xmax) / z ≤ Real.exp (xf j - xf c) := by
            rw [← heq]; exact hple
        _ ≤ Real.exp (-6 : ℝ) := hexp
    calc 127 * (Real.exp (xf j - xmax) / z) ≤ 127 * Real.exp (-6 : ℝ) := by
          linarith
      _ < 127 * (1 / 254) := by linarith
      _ = 1 / 2 := by norm_num
  rw [rne_eq_zero hp0 hfinal]
  norm_num [clip0]

/-- C5: with the causal mask on, every strictly-upper-triangular entry of
the softmax output is exactly 0: for row `i` and column `j > i` the masked
probability rounds to 0. -/
theorem C5_causal_softmax_strict_upper_zero {M N : ℕ}
    (x : Fin M → Fin N → ℤ)
    (hx : ∀ (a : Fin M) (b : Fin N), -128 ≤ x a b ∧ x a b ≤ 127)
    (i : Fin M) (j : Fin N) (hij : (i : ℕ) < (j : ℕ)) :
    softmax_golden x true i j = 0 := by
  have hiN : (i : ℕ) < N := lt_trans hij j.isLt
  have hgoal : softmax_golden x true i j =
      clip0 (rne (127 *
        (Real.exp (softmax_row x true i j - sSup (Set.range (softmax_row x true i))) /
          ∑ d : Fin N,
            Real.exp (softmax_row x true i d -
              sSup (Set.range (softmax_row x true i)))))) := rfl
  rw [hgoal]
  apply softmax_masked_entry_zero (softmax_row x true i) j ⟨(i : ℕ), hiN⟩
  have hfc : softmax_row x true i ⟨(i : ℕ), hiN⟩ = (x i ⟨(i : ℕ), hiN⟩ : ℝ) := by
    unfold softmax_row
    simp
  have hfj : softmax_row x true i j = (x i j : ℝ) - 1000000000 := by
    unfold softmax_row
    rw [if_pos ⟨rfl, hij⟩]
    ring
  rw [hfc, hfj]
  have h1 : (x i j : ℝ) ≤ 127 := by exact_mod_cast (hx i j).2
  have h2 : (-128 : ℝ) ≤ (x i ⟨(i : ℕ), hiN⟩ : ℝ) := by
    exact_mod_cast (hx i ⟨(i : ℕ), hiN⟩).1
  linarith

/-- C5 witness. -/
theorem C5_causal_witness :
    softmax_golden (fun _ _ => (0 : ℤ) : Fin 2 → Fin 2 → ℤ) true 0 1 = 0 :=
  C5_causal_softmax_strict_upper_zero (fun _ _ => (0 : ℤ))
    (by intro a b; constructor <;> norm_num) 0 1 (by norm_num)
